import Mathlib

/-!
# Verification of the go-file-dedupe duplicate-detection pipeline

Shallow embedding of the core of the repository:

* `src/fswalk/fswalk.go` — `walkFiles`, `digester`, `DigestAll` (the current
  concurrent pipeline).  The concurrency is modelled sequentially: the walker
  emissions are a list of walk entries, the output of the worker pool is the list of
  per-file digest results, and the aggregator is a fold over those results.
* the superseded `fswalk.go` variant whose `DigestAll` validates its arguments
  before starting the walk (modelled as `DigestAllChecked`).
* the superseded `src/main.go` variant holding the `Deduplicator` struct with
  `findDuplicates`, `hardlinkDuplicates` and `areFilesHardLinked`.

Machine integers: the Go code uses `atomic.Uint64` counters that are only ever
incremented once per file; overflow is unreachable for any real input, and the
counters are modelled as `Nat`.  Digests (`iphash.HashBytes`, a `[]byte`) are
modelled as `List (Fin 256)`; `hex.EncodeToString` is modelled byte for byte.
-/

namespace FileDedupe

/-- A byte, as stored in an `iphash.HashBytes` slice. -/
abbrev Byte := Fin 256

/-- `iphash.HashBytes`: the digest produced by a `HashFunc`. -/
abbrev HashBytes := List Byte

/-- A Go `error` value as observed by the pipeline: either the sentinel
`context.Canceled` (the only error the current walker can propagate through
`errc`) or an ordinary error carrying a message. -/
inductive GoError where
  | canceled : GoError
  | errMsg (msg : String) : GoError
  deriving DecidableEq, Repr

/-- One lowercase hex digit of the table used by `hex.EncodeToString`
(digits `0`-`9` then letters `a`-`f`). -/
def hexDigit (n : Nat) : Char :=
  if n < 10 then Char.ofNat (48 + n) else Char.ofNat (87 + n)

/-- `hex.EncodeToString` on a single byte: high nibble then low nibble. -/
def hexByte (b : Byte) : List Char := [hexDigit (b.val / 16), hexDigit (b.val % 16)]

/-- `hex.EncodeToString(sum)`: the canonical string key of a digest, as the
list of its characters. -/
def hexEncodeToString (bs : HashBytes) : List Char := bs.foldr (fun b acc => hexByte b ++ acc) []

/-- Hex string keys of the Go maps. -/
abbrev HashKey := List Char

/-- Association-list lookup, modelling Go map indexing `m[k]` (`nil` absent). -/
def lookupA {α β : Type} [DecidableEq α] (k : α) : List (α × β) → Option β
  | [] => none
  | (k', v) :: rest => if k' = k then some v else lookupA k rest

/-- `m[k] = append(m[k], b)` on a Go `map[α][]β`, keeping first-insertion
order of the keys (the list order is irrelevant to the claims, which only look
at `lookupA` and membership). -/
def appendAt {α β : Type} [DecidableEq α] (m : List (α × List β)) (k : α) (b : β) :
    List (α × List β) :=
  match m with
  | [] => [(k, [b])]
  | (k', l) :: rest => if k' = k then (k', l ++ [b]) :: rest else (k', l) :: appendAt rest k b

/-- `m[k] = v` on a Go map: overwrite the binding if present, else add it. -/
def setA {α β : Type} [DecidableEq α] (m : List (α × β)) (k : α) (v : β) : List (α × β) :=
  match m with
  | [] => [(k, v)]
  | (k', v') :: rest => if k' = k then (k', v) :: rest else (k', v') :: setA rest k v

/-- One entry visited by `filepath.WalkDir` inside `walkFiles`, in visit
order.  `file` entries are regular files (carrying their byte content),
`dir` entries are directories, and `errEntry` is a visit with a non-nil
`err` argument (the walker prints a warning and continues). Symlinks and
other non-regular files produce no event at all and are omitted. -/
inductive WalkEntry where
  | file (path : String) (content : List Byte)
  | dir (path : String)
  | errEntry (path : String)
  deriving DecidableEq, Repr

/-- The stream of paths sent on `filePaths` by `walkFiles`: one per regular
file, in visit order.  With an already-cancelled context the walker callback
returns `ctx.Err()` on its first visit, so nothing is emitted. -/
def walkFilePaths (root : String) (entries : List WalkEntry) (cancelled : Bool) : List String :=
  if cancelled then []
  else
    entries.filterMap fun e =>
      match e with
      | .file p _ => some p
      | _ => none

/-- The stream of paths sent on `dirPaths` by `walkFiles`: every directory
except the root itself (`if path != root`). -/
def walkDirPaths (root : String) (entries : List WalkEntry) (cancelled : Bool) : List String :=
  if cancelled then []
  else
    entries.filterMap fun e =>
      match e with
      | .dir p => if p = root then none else some p
      | _ => none

/-- The terminal value sent on `errc` by `walkFiles`: the walker callback
swallows per-entry access errors (returns nil after a warning), so the walk
outcome is non-nil exactly when the cancellation check fired. -/
def walkOutcome (cancelled : Bool) : Option GoError :=
  if cancelled then some GoError.canceled else none

/-- `filesFound` after the walk: `filesFound.Add(1)` runs once per regular
file, before the path is sent. -/
def filesFoundCount (root : String) (entries : List WalkEntry) (cancelled : Bool) : Nat :=
  (walkFilePaths root entries cancelled).length

/-- A `result` record produced by a `digester`: `{path, sum, err}`, with the
Go `(sum, err)` pair modelled as `Except`. -/
abbrev DigestResult := String × Except GoError HashBytes

/-- The digest results for a run: each worker computes `hashFile(path)` for
the paths it receives; the multiset of results over all workers is the image
of the file-path stream (we fix the serial order; every claim below is stated
so that it does not depend on the interleaving). -/
def digestResults (hashFile : String → Except GoError HashBytes) (paths : List String) :
    List DigestResult :=
  paths.map fun p => (p, hashFile p)

/-- One step of the aggregator loop of `DigestAll` on a received `result`
(fswalk.go lines 134-146): a result with a non-nil error only prints a
warning; otherwise the path is appended under its hex digest key. -/
def processResult (t : List (HashKey × List String)) (r : DigestResult) :
    List (HashKey × List String) :=
  match r.2 with
  | .error _ => t
  | .ok sum => appendAt t (hexEncodeToString sum) r.1

/-- The `hashesToPaths` table accumulated by the loop body (lines 134-146)
over the results the aggregator has consumed so far. -/
def buildTable (rs : List DigestResult) : List (HashKey × List String) :=
  rs.foldl processResult []

/-- The `filesHashed` counter over the consumed results: `filesHashed.Add(1)`
runs once per result with `r.err == nil`. -/
def countHashed (rs : List DigestResult) : Nat :=
  rs.foldl
    (fun n r =>
      match r.2 with
      | .ok _ => n + 1
      | .error _ => n)
    0

/-- The duplicate filter of `DigestAll` as written (fswalk.go lines
176-181): keep the groups with more than one path. -/
def duplicatesOf (t : List (HashKey × List String)) : List (HashKey × List String) :=
  t.filter fun kv => decide (1 < kv.2.length)

/-- The return path of `DigestAll` (fswalk.go lines 168-189) — dead code in
the current source, because the drain loop above it can never exit (see
`loop_never_exits`).  As written it would: on a cancelled context return
`(nil, discoveredDirs, ctx.Err())`; on a nil walk error filter
`hashesToPaths` into the duplicates map and return it; on a non-nil walk
error return `(nil, discoveredDirs, finalWalkErr)`. -/
def finishDigestAll (hashesToPaths : List (HashKey × List String)) (discoveredDirs : List String)
    (finalWalkErr ctxErr : Option GoError) :
    Option (List (HashKey × List String)) × List String × Option GoError :=
  match ctxErr with
  | some e => (none, discoveredDirs, some e)
  | none =>
    match finalWalkErr with
    | none => (some (duplicatesOf hashesToPaths), discoveredDirs, none)
    | some e => (none, discoveredDirs, some e)

/-- The local state of the drain loop of `DigestAll` (fswalk.go lines
121-131 and 133-159): `cOpen`, `dirsOpen` and `errcOpen` stand for the
channel variables `c`, `dirPaths` and `errc` being non-nil (each is set to
nil only by a closed-channel receive), next to the accumulated tables, the
`filesHashed` counter and `finalWalkErr`. -/
structure AggLoopState where
  cOpen : Bool
  dirsOpen : Bool
  errcOpen : Bool
  hashesToPaths : List (HashKey × List String)
  discoveredDirs : List String
  filesHashed : Nat
  finalWalkErr : Option GoError
  deriving DecidableEq, Repr

/-- One event a select iteration of the drain loop can consume: a `result`
value or the close of `c` (the closer goroutine closes it at line 118), a
directory value or the close of `dirPaths` (closed by the walker at line
31), or the single walk-outcome value sent on `errc` (line 57; `none` is a
nil error).  There is deliberately NO close event for `errc`: `walkFiles`
closes only `filePaths` and `dirPaths` (lines 30-31) and nothing ever
closes `errc`, so the `!ok` branch at line 155 can never run. -/
inductive ChanEvent where
  | result (r : DigestResult)
  | cClosed
  | dirEvent (p : String)
  | dirsClosed
  | walkErrValue (e : Option GoError)
  deriving Repr

/-- One iteration of the drain loop (fswalk.go lines 133-159) on the event
the select consumed: results with a nil error are appended under their hex
digest key and bump `filesHashed` (lines 141-145), results with an error
only print a warning (lines 138-140), closed-channel receives nil the
corresponding local variable, directory values are appended, and the `errc`
value is stored in `finalWalkErr` (line 157) — leaving `errc` non-nil. -/
def aggLoopStep (st : AggLoopState) (ev : ChanEvent) : AggLoopState :=
  match ev with
  | .result r =>
    match r.2 with
    | .error _ => st
    | .ok sum =>
      { st with filesHashed := st.filesHashed + 1,
                hashesToPaths := appendAt st.hashesToPaths (hexEncodeToString sum) r.1 }
  | .cClosed => { st with cOpen := false }
  | .dirEvent p => { st with discoveredDirs := st.discoveredDirs ++ [p] }
  | .dirsClosed => { st with dirsOpen := false }
  | .walkErrValue e => { st with finalWalkErr := e }

/-- The exit condition of the drain loop (fswalk.go line 162):
`c == nil && dirPaths == nil && errc == nil`. -/
def loopExits (st : AggLoopState) : Bool :=
  !st.cOpen && !st.dirsOpen && !st.errcOpen

/-- The loop state on entry (lines 100-123): all three channels non-nil,
empty tables, no error recorded. -/
def aggInitState : AggLoopState :=
  ⟨true, true, true, [], [], 0, none⟩

/-- The drain loop run over a finite sequence of consumed events. -/
def aggLoopRun (st : AggLoopState) (events : List ChanEvent) : AggLoopState :=
  events.foldl aggLoopStep st

/-- Every event an uncancelled run can deliver to the drain loop, in one
canonical serial order: the directory values, the digest results, then the
closes of `dirPaths` and `c` and the single nil walk outcome from `errc`.
The real interleaving is scheduler-dependent; the statements below either
hold for every event sequence or are about this canonical order. -/
def runEvents (hashFile : String → Except GoError HashBytes) (root : String)
    (entries : List WalkEntry) : List ChanEvent :=
  (walkDirPaths root entries false).map ChanEvent.dirEvent
    ++ (digestResults hashFile (walkFilePaths root entries false)).map ChanEvent.result
    ++ [ChanEvent.dirsClosed, ChanEvent.cClosed, ChanEvent.walkErrValue none]

/-- The tree of the happy-path regression test: two regular files with one
content, one with another, a subdirectory. -/
def treeC1 : List WalkEntry :=
  [WalkEntry.dir "/r", WalkEntry.file "/r/a.txt" [1], WalkEntry.file "/r/b.txt" [2],
    WalkEntry.dir "/r/sub", WalkEntry.file "/r/sub/c.txt" [1]]

/-- A digest function for `treeC1` computing the digest of each file from
its content. -/
def hashTreeC1 : String → Except GoError HashBytes := fun p =>
  if p = "/r/b.txt" then Except.ok [2] else Except.ok [1]

/-- `(fileMap, discoveredDirs, err)` returned by the superseded validating
`DigestAll` variant, whose aggregator builds a path-to-digest map.
`fileMap = none` models a Go `nil` map. -/
structure DigestAllCheckedOutput where
  fileMap : Option (List (String × HashBytes))
  discoveredDirs : List String
  err : Option GoError
  deriving DecidableEq, Repr

/-- Walk entries actually visited by the walker of the superseded variant, which
(unlike the current one) propagates a per-entry access error: `filepath.Walk`
aborts at the first `errEntry`. -/
def walkSeenByChecked (entries : List WalkEntry) : List WalkEntry :=
  entries.takeWhile fun e =>
    match e with
    | .errEntry _ => false
    | _ => true

/-- The walk outcome of the superseded variant: the first per-entry access
error, if any. -/
def walkErrOfChecked (entries : List WalkEntry) : Option GoError :=
  match entries.dropWhile fun e =>
      match e with
      | .errEntry _ => false
      | _ => true with
  | .errEntry p :: _ => some (GoError.errMsg ("error accessing " ++ p))
  | _ => none

/-- `m[r.path] = r.sum` over the successful results: the aggregation of the
superseded variant. -/
def okFileMap (rs : List DigestResult) : List (String × HashBytes) :=
  rs.foldl
    (fun m r =>
      match r.2 with
      | .ok sum => setA m r.1 sum
      | .error _ => m)
    []

/-- The superseded `fswalk.DigestAll` variant (part_003 of the history),
which opens with a validation prologue: a nil hash function, `numWorkers < 1`
or nil counter pointers each return a synchronous configuration error before
`walkFiles` is started. -/
def DigestAllChecked (hasher : Option (String → Except GoError HashBytes)) (numWorkers : Int)
    (countersPresent : Bool) (root : String) (entries : List WalkEntry) (cancelled : Bool) :
    DigestAllCheckedOutput :=
  match hasher with
  | none => ⟨none, [], some (GoError.errMsg "fswalk.DigestAll: provided hash function cannot be nil")⟩
  | some h =>
    if numWorkers < 1 then
      ⟨none, [],
        some (GoError.errMsg
          ("fswalk.DigestAll: numWorkers must be at least 1, got " ++ toString numWorkers))⟩
    else if countersPresent = false then
      ⟨none, [], some (GoError.errMsg "fswalk.DigestAll: provided atomic counters cannot be nil")⟩
    else if cancelled then
      -- The ctx.Done case of the aggregator returns the partial tables with ctx.Err().
      ⟨some [], [], some GoError.canceled⟩
    else
      let seen := walkSeenByChecked entries
      let rs := digestResults h (walkFilePaths root seen false)
      ⟨some (okFileMap rs), walkDirPaths root seen false, walkErrOfChecked entries⟩

/-! ## The `Deduplicator` of the superseded `src/main.go` (part_005)

`findDuplicates` walks `fileMap` (path → digest) and fills `fileByteMap`
(hash string → first seen path) and `fileByteMapDups` (hash string → paths of
a duplicate group, seeded with the first-seen path on the second occurrence).
The Go map iteration supplies the pairs in some sequence `rs`. -/

/-- `fileByteMap` / `fileByteMapDups` of the `Deduplicator`. -/
structure DedupState where
  fileByteMap : List (HashKey × String)
  fileByteMapDups : List (HashKey × List String)
  deriving DecidableEq, Repr

/-- The body of the `findDuplicates` loop for one `(path, hashBytes)` pair. -/
def findDuplicatesStep (st : DedupState) (pr : String × HashBytes) : DedupState :=
  let hashString := hexEncodeToString pr.2
  match lookupA hashString st.fileByteMap with
  | none =>
    -- First time seeing this hash: record it as the original.
    { st with fileByteMap := setA st.fileByteMap hashString pr.1 }
  | some originalPath =>
    -- Seen before: seed the duplicate group with the original if needed,
    -- then append the new duplicate path.
    let seeded :=
      match lookupA hashString st.fileByteMapDups with
      | none => setA st.fileByteMapDups hashString [originalPath]
      | some _ => st.fileByteMapDups
    let newDups := setA seeded hashString ((lookupA hashString seeded).getD [] ++ [pr.1])
    { st with fileByteMapDups := newDups }

/-- `Deduplicator.findDuplicates`, as a fold over the `fileMap` iteration
sequence. -/
def findDuplicates (rs : List (String × HashBytes)) : DedupState :=
  rs.foldl findDuplicatesStep ⟨[], []⟩

/-! ## The consolidation pass (`hardlinkDuplicates`, part_005)

The filesystem is modelled as a partial map from path to the identity of the
underlying storage object (device+inode).  `os.Stat` fails exactly on absent
paths; `os.Remove` fails on absent paths; `os.Link(orig, dup)` fails when
`orig` is absent or `dup` already exists; `os.SameFile` compares the storage
identities. -/

/-- Filesystem state for the consolidator: path → storage object (inode). -/
def LinkFS := String → Option Nat

/-- `areFilesHardLinked(path1, path2)`: stat both, compare with `os.SameFile`;
`none` models a stat error on either path. -/
def areFilesHardLinked (fs : LinkFS) (path1 path2 : String) : Option Bool :=
  match fs path1 with
  | none => none
  | some i1 =>
    match fs path2 with
    | none => none
    | some i2 => some (i1 = i2)

/-- `os.Remove(p)`: fails iff `p` does not exist. -/
def osRemove (fs : LinkFS) (p : String) : Option LinkFS :=
  match fs p with
  | none => none
  | some _ => some fun q => if q = p then none else fs q

/-- `os.Link(originalPath, duplicatePath)`: fails iff the original is absent
or the target path already exists; otherwise the target becomes another name
for the storage object of the original. -/
def osLink (fs : LinkFS) (originalPath duplicatePath : String) : Option LinkFS :=
  match fs originalPath with
  | none => none
  | some i =>
    match fs duplicatePath with
    | some _ => none
    | none => some fun q => if q = duplicatePath then some i else fs q

/-- The body of the inner `hardlinkDuplicates` loop for one candidate: skip
on a stat error, skip when already hard-linked, otherwise remove the
duplicate and link it to the original, counting `linksCreatedCount.Add(1)`
only when the link succeeds.  Every failure is a logged `continue`. -/
def hardlinkCandidate (fs : LinkFS) (cnt : Nat) (originalPath duplicatePath : String) :
    LinkFS × Nat :=
  match areFilesHardLinked fs originalPath duplicatePath with
  | none => (fs, cnt)
  | some true => (fs, cnt)
  | some false =>
    match osRemove fs duplicatePath with
    | none => (fs, cnt)
    | some fs1 =>
      match osLink fs1 originalPath duplicatePath with
      | none => (fs1, cnt)
      | some fs2 => (fs2, cnt + 1)

/-- Processing of one duplicate group: `paths[0]` is the designated original,
`paths[1:]` the candidates.  (Groups built by `findDuplicates` are always
nonempty — in fact of length ≥ 2 — so the `[]` case is unreachable there.) -/
def hardlinkGroup (acc : LinkFS × Nat) (paths : List String) : LinkFS × Nat :=
  match paths with
  | [] => acc
  | originalPath :: duplicatePaths =>
    duplicatePaths.foldl (fun a d => hardlinkCandidate a.1 a.2 originalPath d) acc

/-- `Deduplicator.hardlinkDuplicates`: iterate over the groups of
`fileByteMapDups` (in the sequence the Go map range supplies), returning the
final filesystem and the number of replacements performed by this run. -/
def hardlinkDuplicates (fs : LinkFS) (groups : List (HashKey × List String)) : LinkFS × Nat :=
  groups.foldl (fun a kv => hardlinkGroup a kv.2) (fs, 0)

/-! ## Counter traces

`filesFound` is incremented by the walker when it classifies a regular file
(fswalk.go line 50), `filesHashed` by the aggregator when a result carries a
nil error (line 142).  An interleaved execution is modelled as a trace of
these events; causality — a result can only be produced for a path previously
counted by the walker — is the recursive bound `causal`. -/

/-- One observable counter-relevant event of a run. -/
inductive TraceEvent where
  | found (path : String)
  | hashedOk (path : String) (sum : HashBytes)
  | hashedErr (path : String)
  deriving DecidableEq, Repr

/-- The two `atomic.Uint64` counters. -/
structure Counters where
  filesFound : Nat
  filesHashed : Nat
  deriving DecidableEq, Repr

/-- The effect of one event on the counters: `filesFound.Add(1)` on a found
file, `filesHashed.Add(1)` on a successfully hashed file, nothing on a failed
hash. -/
def stepCounters (c : Counters) : TraceEvent → Counters
  | .found _ => { c with filesFound := c.filesFound + 1 }
  | .hashedOk _ _ => { c with filesHashed := c.filesHashed + 1 }
  | .hashedErr _ => c

/-- Counter values after a trace. -/
def runCounters (tr : List TraceEvent) : Counters :=
  tr.foldl stepCounters ⟨0, 0⟩

/-- Is the event a digest result (successful or failed)? -/
def isHashEvent : TraceEvent → Bool
  | .found _ => false
  | .hashedOk _ _ => true
  | .hashedErr _ => true

/-- Is the event a walker file classification? -/
def isFoundEvent : TraceEvent → Bool
  | .found _ => true
  | _ => false

/-- Is the event a successful digest result? -/
def isOkEvent : TraceEvent → Bool
  | .hashedOk _ _ => true
  | _ => false

/-- Causality of a trace, given how many found / result events precede it:
in the pipeline a `result` is sent only for a path that was previously
counted by `filesFound.Add(1)`, so in every prefix the number of results
never exceeds the number of found files. -/
def causal (foundSoFar resultsSoFar : Nat) : List TraceEvent → Bool
  | [] => true
  | e :: rest =>
    let foundNext := if isFoundEvent e then foundSoFar + 1 else foundSoFar
    let resultsNext := if isHashEvent e then resultsSoFar + 1 else resultsSoFar
    decide (resultsNext ≤ foundNext) && causal foundNext resultsNext rest

/-! ## Specification-side derived definitions -/

/-- The keys of an association list. -/
def keysA {α β : Type} (m : List (α × β)) : List α := m.map Prod.fst

/-- The paths of the successful results whose digest encodes to `k`, in
arrival order: the intended contents of `hashesToPaths[k]`. -/
def pathsFor (k : HashKey) (rs : List DigestResult) : List String :=
  rs.filterMap fun r =>
    match r.2 with
    | .ok sum => if hexEncodeToString sum = k then some r.1 else none
    | .error _ => none

/-- Paths of a sequence of successful `(path, digest)` results whose digest
encodes to `k`. -/
def pathsForOk (k : HashKey) (rs : List (String × HashBytes)) : List String :=
  rs.filterMap fun pr => if hexEncodeToString pr.2 = k then some pr.1 else none

/-- Loop invariant of `findDuplicates` after processing the pairs `rs`:
`fileByteMap` holds the first path per digest string, `fileByteMapDups`
exactly the groups with at least two occurrences. -/
def FindInv (st : DedupState) (rs : List (String × HashBytes)) : Prop :=
  (keysA st.fileByteMapDups).Nodup ∧
    ∀ k, lookupA k st.fileByteMap = (pathsForOk k rs).head? ∧
      lookupA k st.fileByteMapDups =
        if 1 < (pathsForOk k rs).length then some (pathsForOk k rs) else none

/-- Did the result carry a nil error (so that `filesHashed` is bumped and the
path recorded)? -/
def isOkResult (r : DigestResult) : Bool :=
  match r.2 with
  | .ok _ => true
  | .error _ => false

/-- An original/candidate pair needs no consolidation work: it is not the
case that both paths exist with distinct storage objects. -/
def settled (fs : LinkFS) (originalPath duplicatePath : String) : Prop :=
  ∀ i j, fs originalPath = some i → fs duplicatePath = some j → i = j

/-- All original/candidate pairs of a duplicate-group table are settled. -/
def AllSettled (fs : LinkFS) (groups : List (HashKey × List String)) : Prop :=
  ∀ kv ∈ groups, ∀ o dups, kv.2 = o :: dups → ∀ d ∈ dups, settled fs o d

/-! ## Concrete instances (spec scenario D and consolidation examples) -/

/-- The digest shared by the three identical files of scenario D. -/
def scenarioDigest : HashBytes := [(97 : Fin 256)]

/-- Scenario D tree: a root directory with three identical regular files. -/
def scenarioEntries : List WalkEntry :=
  [WalkEntry.dir "/r", WalkEntry.file "/r/a" [97], WalkEntry.file "/r/b" [97],
    WalkEntry.file "/r/c" [97]]

/-- Scenario D digest function: fails on exactly one of the three files. -/
def scenarioHashFile : String → Except GoError HashBytes := fun p =>
  if p = "/r/b" then Except.error (GoError.errMsg "read failure") else Except.ok scenarioDigest

/-- A successful result sequence with three identical digests, as handed to
`findDuplicates`. -/
def scenarioResults : List (String × HashBytes) :=
  [("/r/a", scenarioDigest), ("/r/b", scenarioDigest), ("/r/c", scenarioDigest)]

/-- A filesystem in which the three scenario paths are distinct storage
objects. -/
def scenarioFS : LinkFS := fun p =>
  if p = "/r/a" then some 1
  else if p = "/r/b" then some 2
  else if p = "/r/c" then some 3
  else none

/-! ## Lemmas: hex encoding -/

theorem hexDigit_inj16 : ∀ a b : Fin 16, hexDigit a.val = hexDigit b.val → a = b := by decide

theorem hexByte_inj : ∀ a b : Byte, hexByte a = hexByte b → a = b := by
  intro a b h
  simp only [hexByte, List.cons.injEq, and_true] at h
  obtain ⟨hhi, hlo⟩ := h
  have h1 : a.val / 16 = b.val / 16 := by
    have := hexDigit_inj16 ⟨a.val / 16, by omega⟩ ⟨b.val / 16, by omega⟩ hhi
    simpa using congrArg Fin.val this
  have h2 : a.val % 16 = b.val % 16 := by
    have := hexDigit_inj16 ⟨a.val % 16, by omega⟩ ⟨b.val % 16, by omega⟩ hlo
    simpa using congrArg Fin.val this
  have : a.val = b.val := by omega
  exact Fin.ext this

theorem hexEncode_cons (b : Byte) (bs : HashBytes) :
    hexEncodeToString (b :: bs) = hexByte b ++ hexEncodeToString bs := rfl

theorem hexEncodeToString_inj : ∀ xs ys : HashBytes,
    hexEncodeToString xs = hexEncodeToString ys → xs = ys := by
  intro xs
  induction xs with
  | nil =>
    intro ys h
    cases ys with
    | nil => rfl
    | cons y ys => simp [hexEncodeToString, hexByte] at h
  | cons x xs ih =>
    intro ys h
    cases ys with
    | nil => simp [hexEncodeToString, hexByte] at h
    | cons y ys =>
      rw [hexEncode_cons, hexEncode_cons] at h
      simp only [hexByte, List.cons_append, List.nil_append, List.cons.injEq] at h
      obtain ⟨hhi, hlo, htail⟩ := h
      have hxy : x = y := hexByte_inj x y (by simp [hexByte, hhi, hlo])
      exact hxy ▸ congrArg (x :: ·) (ih ys htail)

/-! ## Lemmas: association lists -/

theorem lookupA_setA_self {α β : Type} [DecidableEq α] (m : List (α × β)) (k : α) (v : β) :
    lookupA k (setA m k v) = some v := by
  induction m with
  | nil => simp [setA, lookupA]
  | cons kv rest ih =>
    by_cases h : kv.1 = k
    · simp [setA, h, lookupA]
    · simpa [setA, h, lookupA] using ih

theorem lookupA_setA_ne {α β : Type} [DecidableEq α] (m : List (α × β)) (k k' : α) (v : β)
    (hne : k' ≠ k) : lookupA k' (setA m k v) = lookupA k' m := by
  have hk : ¬ k = k' := fun h => hne h.symm
  induction m with
  | nil => simp [setA, lookupA, hk]
  | cons kv rest ih =>
    by_cases h : kv.1 = k
    · subst h
      simp [setA, lookupA, hk, ih]
    · simp [setA, h, lookupA, ih]

theorem lookupA_appendAt_self {α β : Type} [DecidableEq α] (m : List (α × List β)) (k : α)
    (b : β) : lookupA k (appendAt m k b) = some ((lookupA k m).getD [] ++ [b]) := by
  induction m with
  | nil => simp [appendAt, lookupA]
  | cons kv rest ih =>
    by_cases h : kv.1 = k
    · simp [appendAt, h, lookupA]
    · simpa [appendAt, h, lookupA] using ih

theorem lookupA_appendAt_ne {α β : Type} [DecidableEq α] (m : List (α × List β)) (k k' : α)
    (b : β) (hne : k' ≠ k) : lookupA k' (appendAt m k b) = lookupA k' m := by
  have hk : ¬ k = k' := fun h => hne h.symm
  induction m with
  | nil => simp [appendAt, lookupA, hk]
  | cons kv rest ih =>
    by_cases h : kv.1 = k
    · subst h
      simp [appendAt, lookupA, hk, ih]
    · simp [appendAt, h, lookupA, ih]

theorem keysA_appendAt {α β : Type} [DecidableEq α] (m : List (α × List β)) (k : α) (b : β) :
    (k ∈ keysA m ∧ keysA (appendAt m k b) = keysA m) ∨
      (k ∉ keysA m ∧ keysA (appendAt m k b) = keysA m ++ [k]) := by
  induction m with
  | nil => right; simp [appendAt, keysA]
  | cons kv rest ih =>
    obtain ⟨k', l⟩ := kv
    by_cases h : k' = k
    · left
      subst h
      exact ⟨by simp [keysA], by simp [appendAt, keysA]⟩
    · rcases ih with ⟨hin, he⟩ | ⟨hout, he⟩
      · left
        refine ⟨?_, ?_⟩
        · simp only [keysA, List.map_cons, List.mem_cons]
          exact Or.inr (by simpa [keysA] using hin)
        · simp only [appendAt, if_neg h, keysA, List.map_cons, List.cons.injEq, true_and]
          simpa [keysA] using he
      · right
        refine ⟨?_, ?_⟩
        · simp only [keysA, List.map_cons, List.mem_cons, not_or]
          exact ⟨fun hk => h hk.symm, by simpa [keysA] using hout⟩
        · simp only [appendAt, if_neg h, keysA, List.map_cons, List.cons_append,
            List.cons.injEq, true_and]
          simpa [keysA] using he

theorem nodup_keysA_appendAt {α β : Type} [DecidableEq α] (m : List (α × List β)) (k : α)
    (b : β) (hnd : (keysA m).Nodup) : (keysA (appendAt m k b)).Nodup := by
  rcases keysA_appendAt m k b with ⟨_, he⟩ | ⟨hout, he⟩
  · rw [he]; exact hnd
  · rw [he]
    rw [List.nodup_append]
    exact ⟨hnd, List.nodup_singleton k, by
      intro x hx hxk
      simp only [List.mem_singleton] at hxk
      exact hout (hxk ▸ hx)⟩

theorem lookupA_eq_none_of_not_mem_keys {α β : Type} [DecidableEq α] (m : List (α × β))
    (k : α) (h : k ∉ keysA m) : lookupA k m = none := by
  induction m with
  | nil => rfl
  | cons kv rest ih =>
    obtain ⟨k', v⟩ := kv
    simp only [keysA, List.map_cons, List.mem_cons, not_or] at h
    simp only [lookupA, if_neg (fun he : k' = k => h.1 he.symm)]
    exact ih (by simpa [keysA] using h.2)

theorem lookupA_filter {α β : Type} [DecidableEq α] (m : List (α × β)) (k : α)
    (q : α × β → Bool) (hnd : (keysA m).Nodup) :
    lookupA k (m.filter q) =
      (lookupA k m).bind fun v => if q (k, v) then some v else none := by
  induction m with
  | nil => simp [lookupA]
  | cons kv rest ih =>
    simp only [keysA, List.map_cons, List.nodup_cons] at hnd
    by_cases h : kv.1 = k
    · subst h
      have hnone : lookupA kv.1 (rest.filter q) = none := by
        apply lookupA_eq_none_of_not_mem_keys
        intro hmem
        apply hnd.1
        simp only [keysA, List.mem_map] at hmem
        obtain ⟨ab, hab, hfst⟩ := hmem
        exact List.mem_map.2 ⟨ab, List.mem_of_mem_filter hab, hfst⟩
      by_cases hq : q kv = true
      · simp [List.filter_cons, hq, lookupA]
      · simp [List.filter_cons, hq, lookupA, hnone]
    · by_cases hq : q kv = true
      · simp [List.filter_cons, hq, lookupA, h, ih hnd.2]
      · simp [List.filter_cons, hq, lookupA, h, ih hnd.2]

/-! ## Lemmas: the aggregator table of `DigestAll` -/

theorem pathsFor_cons_err (k : HashKey) (r : DigestResult) (rs : List DigestResult)
    (e : GoError) (hr : r.2 = .error e) : pathsFor k (r :: rs) = pathsFor k rs := by
  simp [pathsFor, List.filterMap_cons, hr]

theorem pathsFor_cons_ok_eq (k : HashKey) (r : DigestResult) (rs : List DigestResult)
    (d : HashBytes) (hr : r.2 = .ok d) (hk : hexEncodeToString d = k) :
    pathsFor k (r :: rs) = r.1 :: pathsFor k rs := by
  simp [pathsFor, List.filterMap_cons, hr, hk]

theorem pathsFor_cons_ok_ne (k : HashKey) (r : DigestResult) (rs : List DigestResult)
    (d : HashBytes) (hr : r.2 = .ok d) (hk : hexEncodeToString d ≠ k) :
    pathsFor k (r :: rs) = pathsFor k rs := by
  simp [pathsFor, List.filterMap_cons, hr, hk]

theorem buildTable_aux : ∀ (rs : List DigestResult) (t : List (HashKey × List String)),
    (keysA t).Nodup →
    (keysA (rs.foldl processResult t)).Nodup ∧
      ∀ k, lookupA k (rs.foldl processResult t) =
        match lookupA k t with
        | some l => some (l ++ pathsFor k rs)
        | none => if pathsFor k rs = [] then none else some (pathsFor k rs) := by
  intro rs
  induction rs with
  | nil =>
    intro t hnd
    refine ⟨hnd, fun k => ?_⟩
    cases h : lookupA k t with
    | none => simp [pathsFor, h]
    | some l => simp [pathsFor, h]
  | cons r rest ih =>
    intro t hnd
    cases hr : r.2 with
    | error e =>
      have hstep : processResult t r = t := by simp [processResult, hr]
      have := ih t hnd
      rw [List.foldl_cons, hstep]
      refine ⟨this.1, fun k => ?_⟩
      rw [pathsFor_cons_err k r rest e hr]
      exact this.2 k
    | ok d =>
      have hstep : processResult t r = appendAt t (hexEncodeToString d) r.1 := by
        simp [processResult, hr]
      have hnd' := nodup_keysA_appendAt t (hexEncodeToString d) r.1 hnd
      have := ih (appendAt t (hexEncodeToString d) r.1) hnd'
      rw [List.foldl_cons, hstep]
      refine ⟨this.1, fun k => ?_⟩
      rw [this.2 k]
      by_cases hk : hexEncodeToString d = k
      · subst hk
        rw [lookupA_appendAt_self t (hexEncodeToString d) r.1]
        rw [pathsFor_cons_ok_eq (hexEncodeToString d) r rest d hr rfl]
        cases h : lookupA (hexEncodeToString d) t with
        | none => simp [h]
        | some l => simp [h]
      · rw [lookupA_appendAt_ne t (hexEncodeToString d) k r.1 (fun he => hk he.symm)]
        rw [pathsFor_cons_ok_ne k r rest d hr hk]

theorem buildTable_keys_nodup (rs : List DigestResult) : (keysA (buildTable rs)).Nodup :=
  (buildTable_aux rs [] (by simp [keysA])).1

theorem buildTable_lookupA (rs : List DigestResult) (k : HashKey) :
    lookupA k (buildTable rs) =
      if pathsFor k rs = [] then none else some (pathsFor k rs) := by
  have := (buildTable_aux rs [] (by simp [keysA])).2 k
  simpa [buildTable, lookupA] using this

theorem duplicatesOf_lookupA (t : List (HashKey × List String)) (k : HashKey)
    (hnd : (keysA t).Nodup) :
    lookupA k (duplicatesOf t) =
      (lookupA k t).bind fun l => if 1 < l.length then some l else none := by
  have := lookupA_filter t k (fun kv => decide (1 < kv.2.length)) hnd
  simpa [duplicatesOf] using this

/-- The duplicates map of a clean run, characterized per key: exactly the
keys with at least two successfully hashed paths survive. -/
theorem dupTable_lookupA (rs : List DigestResult) (k : HashKey) :
    lookupA k (duplicatesOf (buildTable rs)) =
      if 1 < (pathsFor k rs).length then some (pathsFor k rs) else none := by
  rw [duplicatesOf_lookupA (buildTable rs) k (buildTable_keys_nodup rs),
    buildTable_lookupA rs k]
  by_cases h : pathsFor k rs = []
  · simp [h]
  · simp [h]

/-! ## Lemmas: `findDuplicates` -/

theorem pathsForOk_append (k : HashKey) (rs1 rs2 : List (String × HashBytes)) :
    pathsForOk k (rs1 ++ rs2) = pathsForOk k rs1 ++ pathsForOk k rs2 := by
  simp [pathsForOk, List.filterMap_append]

theorem pathsForOk_singleton_eq (k : HashKey) (pr : String × HashBytes)
    (h : hexEncodeToString pr.2 = k) : pathsForOk k [pr] = [pr.1] := by
  simp [pathsForOk, List.filterMap_cons, h]

theorem pathsForOk_singleton_ne (k : HashKey) (pr : String × HashBytes)
    (h : hexEncodeToString pr.2 ≠ k) : pathsForOk k [pr] = [] := by
  simp [pathsForOk, List.filterMap_cons, h]

theorem keysA_setA {α β : Type} [DecidableEq α] (m : List (α × β)) (k : α) (v : β) :
    (k ∈ keysA m ∧ keysA (setA m k v) = keysA m) ∨
      (k ∉ keysA m ∧ keysA (setA m k v) = keysA m ++ [k]) := by
  induction m with
  | nil => right; simp [setA, keysA]
  | cons kv rest ih =>
    obtain ⟨k', v'⟩ := kv
    by_cases h : k' = k
    · left
      subst h
      exact ⟨by simp [keysA], by simp [setA, keysA]⟩
    · rcases ih with ⟨hin, he⟩ | ⟨hout, he⟩
      · left
        refine ⟨?_, ?_⟩
        · simp only [keysA, List.map_cons, List.mem_cons]
          exact Or.inr (by simpa [keysA] using hin)
        · simp only [setA, if_neg h, keysA, List.map_cons, List.cons.injEq, true_and]
          simpa [keysA] using he
      · right
        refine ⟨?_, ?_⟩
        · simp only [keysA, List.map_cons, List.mem_cons, not_or]
          exact ⟨fun hk => h hk.symm, by simpa [keysA] using hout⟩
        · simp only [setA, if_neg h, keysA, List.map_cons, List.cons_append,
            List.cons.injEq, true_and]
          simpa [keysA] using he

theorem nodup_keysA_setA {α β : Type} [DecidableEq α] (m : List (α × β)) (k : α) (v : β)
    (hnd : (keysA m).Nodup) : (keysA (setA m k v)).Nodup := by
  rcases keysA_setA m k v with ⟨_, he⟩ | ⟨hout, he⟩
  · rw [he]; exact hnd
  · rw [he]
    rw [List.nodup_append]
    exact ⟨hnd, List.nodup_singleton k, by
      intro x hx hxk
      simp only [List.mem_singleton] at hxk
      exact hout (hxk ▸ hx)⟩

theorem findDuplicatesStep_case_new (st : DedupState) (pr : String × HashBytes)
    (hb : lookupA (hexEncodeToString pr.2) st.fileByteMap = none) :
    (findDuplicatesStep st pr).fileByteMap =
        setA st.fileByteMap (hexEncodeToString pr.2) pr.1 ∧
      (findDuplicatesStep st pr).fileByteMapDups = st.fileByteMapDups := by
  constructor <;> simp [findDuplicatesStep, hb]

theorem findDuplicatesStep_case_seed (st : DedupState) (pr : String × HashBytes)
    (originalPath : String)
    (hb : lookupA (hexEncodeToString pr.2) st.fileByteMap = some originalPath)
    (hd : lookupA (hexEncodeToString pr.2) st.fileByteMapDups = none) :
    (findDuplicatesStep st pr).fileByteMap = st.fileByteMap ∧
      (findDuplicatesStep st pr).fileByteMapDups =
        setA (setA st.fileByteMapDups (hexEncodeToString pr.2) [originalPath])
          (hexEncodeToString pr.2) ([originalPath] ++ [pr.1]) := by
  constructor <;> simp [findDuplicatesStep, hb, hd, lookupA_setA_self]

theorem findDuplicatesStep_case_grow (st : DedupState) (pr : String × HashBytes)
    (originalPath : String) (ds : List String)
    (hb : lookupA (hexEncodeToString pr.2) st.fileByteMap = some originalPath)
    (hd : lookupA (hexEncodeToString pr.2) st.fileByteMapDups = some ds) :
    (findDuplicatesStep st pr).fileByteMap = st.fileByteMap ∧
      (findDuplicatesStep st pr).fileByteMapDups =
        setA st.fileByteMapDups (hexEncodeToString pr.2) (ds ++ [pr.1]) := by
  constructor <;> simp [findDuplicatesStep, hb, hd]

theorem findDuplicatesStep_inv (st : DedupState) (rs0 : List (String × HashBytes))
    (pr : String × HashBytes) (h : FindInv st rs0) :
    FindInv (findDuplicatesStep st pr) (rs0 ++ [pr]) := by
  obtain ⟨hnd, hinv⟩ := h
  have hpaths : ∀ k, pathsForOk k (rs0 ++ [pr]) =
      pathsForOk k rs0 ++ pathsForOk k [pr] := fun k => pathsForOk_append k rs0 [pr]
  cases hb : lookupA (hexEncodeToString pr.2) st.fileByteMap with
  | none =>
    have hempty : pathsForOk (hexEncodeToString pr.2) rs0 = [] := by
      have := (hinv (hexEncodeToString pr.2)).1
      rw [hb] at this
      exact List.head?_eq_none_iff.1 this.symm
    obtain ⟨hfb, hfd⟩ := findDuplicatesStep_case_new st pr hb
    refine ⟨hfd ▸ hnd, fun k => ?_⟩
    rw [hfb, hfd]
    by_cases hk : hexEncodeToString pr.2 = k
    · subst hk
      constructor
      · rw [lookupA_setA_self, hpaths, hempty, pathsForOk_singleton_eq _ pr rfl]
        rfl
      · rw [hpaths, hempty, pathsForOk_singleton_eq _ pr rfl]
        have := (hinv (hexEncodeToString pr.2)).2
        rw [hempty] at this
        simpa using this
    · constructor
      · rw [lookupA_setA_ne _ _ _ _ (fun he => hk he.symm)]
        rw [hpaths, pathsForOk_singleton_ne _ pr hk, List.append_nil]
        exact (hinv k).1
      · rw [hpaths, pathsForOk_singleton_ne _ pr hk, List.append_nil]
        exact (hinv k).2
  | some originalPath =>
    have hhead : (pathsForOk (hexEncodeToString pr.2) rs0).head? = some originalPath := by
      have := (hinv (hexEncodeToString pr.2)).1
      rw [hb] at this
      exact this.symm
    obtain ⟨tl, htl⟩ : ∃ tl, pathsForOk (hexEncodeToString pr.2) rs0 = originalPath :: tl := by
      cases hp : pathsForOk (hexEncodeToString pr.2) rs0 with
      | nil => rw [hp] at hhead; simp at hhead
      | cons a l =>
        rw [hp] at hhead
        simp only [List.head?_cons, Option.some.injEq] at hhead
        exact ⟨l, by rw [hhead]⟩
    cases hd : lookupA (hexEncodeToString pr.2) st.fileByteMapDups with
    | none =>
      have hsingle : pathsForOk (hexEncodeToString pr.2) rs0 = [originalPath] := by
        have := (hinv (hexEncodeToString pr.2)).2
        rw [hd] at this
        by_cases hlen : 1 < (pathsForOk (hexEncodeToString pr.2) rs0).length
        · rw [if_pos hlen] at this; exact absurd this (by simp)
        · rw [htl] at hlen ⊢
          simp only [List.length_cons, not_lt] at hlen
          have : tl = [] := List.length_eq_zero.1 (by omega)
          rw [this]
      obtain ⟨hfb, hfd⟩ := findDuplicatesStep_case_seed st pr originalPath hb hd
      refine ⟨?_, fun k => ?_⟩
      · rw [hfd]
        exact nodup_keysA_setA _ _ _ (nodup_keysA_setA _ _ _ hnd)
      rw [hfb, hfd]
      by_cases hk : hexEncodeToString pr.2 = k
      · subst hk
        constructor
        · rw [hb, hpaths, hsingle, pathsForOk_singleton_eq _ pr rfl]
          rfl
        · rw [lookupA_setA_self, hpaths, hsingle, pathsForOk_singleton_eq _ pr rfl]
          simp
      · constructor
        · rw [hpaths, pathsForOk_singleton_ne _ pr hk, List.append_nil]
          exact (hinv k).1
        · rw [lookupA_setA_ne _ _ _ _ (fun he => hk he.symm),
            lookupA_setA_ne _ _ _ _ (fun he => hk he.symm)]
          rw [hpaths, pathsForOk_singleton_ne _ pr hk, List.append_nil]
          exact (hinv k).2
    | some ds =>
      have hlen : 1 < (pathsForOk (hexEncodeToString pr.2) rs0).length ∧
          ds = pathsForOk (hexEncodeToString pr.2) rs0 := by
        have := (hinv (hexEncodeToString pr.2)).2
        rw [hd] at this
        by_cases hl : 1 < (pathsForOk (hexEncodeToString pr.2) rs0).length
        · rw [if_pos hl] at this
          exact ⟨hl, Option.some.inj this⟩
        · rw [if_neg hl] at this; exact absurd this (by simp)
      obtain ⟨hfb, hfd⟩ := findDuplicatesStep_case_grow st pr originalPath ds hb hd
      refine ⟨?_, fun k => ?_⟩
      · rw [hfd]
        exact nodup_keysA_setA _ _ _ hnd
      rw [hfb, hfd]
      by_cases hk : hexEncodeToString pr.2 = k
      · subst hk
        constructor
        · rw [hb, hpaths, pathsForOk_singleton_eq _ pr rfl, htl]
          rfl
        · rw [lookupA_setA_self, hpaths, pathsForOk_singleton_eq _ pr rfl, hlen.2]
          have hgt : 1 < (pathsForOk (hexEncodeToString pr.2) rs0 ++ [pr.1]).length := by
            rw [List.length_append]
            have := hlen.1
            omega
          rw [if_pos hgt]
      · constructor
        · rw [hpaths, pathsForOk_singleton_ne _ pr hk, List.append_nil]
          exact (hinv k).1
        · rw [lookupA_setA_ne _ _ _ _ (fun he => hk he.symm)]
          rw [hpaths, pathsForOk_singleton_ne _ pr hk, List.append_nil]
          exact (hinv k).2

theorem findDuplicates_inv : ∀ (rs rs0 : List (String × HashBytes)) (st : DedupState),
    FindInv st rs0 → FindInv (rs.foldl findDuplicatesStep st) (rs0 ++ rs) := by
  intro rs
  induction rs with
  | nil => intro rs0 st h; simpa using h
  | cons pr rest ih =>
    intro rs0 st h
    have h' := findDuplicatesStep_inv st rs0 pr h
    have := ih (rs0 ++ [pr]) (findDuplicatesStep st pr) h'
    simpa using this

theorem findDuplicates_inv_run (rs : List (String × HashBytes)) :
    FindInv (findDuplicates rs) rs := by
  have hinit : FindInv ⟨[], []⟩ [] := by
    refine ⟨by simp [keysA], fun k => ?_⟩
    simp [lookupA, pathsForOk]
  have := findDuplicates_inv rs [] ⟨[], []⟩ hinit
  simpa [findDuplicates] using this

theorem findDuplicates_dups_lookupA (rs : List (String × HashBytes)) (k : HashKey) :
    lookupA k (findDuplicates rs).fileByteMapDups =
      if 1 < (pathsForOk k rs).length then some (pathsForOk k rs) else none :=
  ((findDuplicates_inv_run rs).2 k).2

theorem findDuplicates_dups_keys_nodup (rs : List (String × HashBytes)) :
    (keysA (findDuplicates rs).fileByteMapDups).Nodup :=
  (findDuplicates_inv_run rs).1

/-! ## Lemmas: glue between the pipeline, `findDuplicates` and the claims -/

theorem pathsFor_map_ok (k : HashKey) (rs : List (String × HashBytes)) :
    pathsFor k (rs.map fun pr => (pr.1, Except.ok pr.2)) = pathsForOk k rs := by
  rw [pathsFor, pathsForOk, List.filterMap_map]
  rfl

theorem pathsFor_digestResults (k : HashKey) (hashFile : String → Except GoError HashBytes)
    (files : List String) :
    pathsFor k (digestResults hashFile files) =
      files.filterMap fun p =>
        match hashFile p with
        | .ok d => if hexEncodeToString d = k then some p else none
        | .error _ => none := by
  rw [pathsFor, digestResults, List.filterMap_map]
  rfl

theorem mem_pathsFor_digestResults (k : HashKey) (hashFile : String → Except GoError HashBytes)
    (files : List String) (p : String) (d : HashBytes) (hp : p ∈ files)
    (hh : hashFile p = Except.ok d) (hk : hexEncodeToString d = k) :
    p ∈ pathsFor k (digestResults hashFile files) := by
  rw [pathsFor_digestResults]
  exact List.mem_filterMap.2 ⟨p, hp, by simp [hh, hk]⟩

theorem of_mem_pathsFor_digestResults (k : HashKey)
    (hashFile : String → Except GoError HashBytes) (files : List String) (q : String)
    (hq : q ∈ pathsFor k (digestResults hashFile files)) :
    q ∈ files ∧ ∃ d, hashFile q = Except.ok d ∧ hexEncodeToString d = k := by
  rw [pathsFor_digestResults] at hq
  obtain ⟨p, hp, hval⟩ := List.mem_filterMap.1 hq
  cases hh : hashFile p with
  | error e => rw [hh] at hval; simp at hval
  | ok d =>
    rw [hh] at hval
    have hval' : (if hexEncodeToString d = k then some p else none) = some q := hval
    by_cases hk : hexEncodeToString d = k
    · rw [if_pos hk] at hval'
      obtain rfl : p = q := Option.some.inj hval'
      exact ⟨hp, d, hh, hk⟩
    · rw [if_neg hk] at hval'
      exact absurd hval' (by simp)

theorem one_lt_length_of_two_mem {α : Type} {l : List α} {a b : α} (ha : a ∈ l) (hb : b ∈ l)
    (hne : a ≠ b) : 1 < l.length := by
  cases l with
  | nil => cases ha
  | cons x t =>
    cases t with
    | nil =>
      simp only [List.mem_singleton] at ha hb
      exact absurd (ha.trans hb.symm) hne
    | cons y u => simp only [List.length_cons]; omega

theorem file_mem_walkFilePaths (root : String) (entries : List WalkEntry) (p : String)
    (c : List Byte) (hmem : WalkEntry.file p c ∈ entries) :
    p ∈ walkFilePaths root entries false := by
  rw [walkFilePaths]
  simp only [Bool.false_eq_true, if_neg]
  exact List.mem_filterMap.2 ⟨WalkEntry.file p c, hmem, rfl⟩

theorem countHashed_aux (rs : List DigestResult) : ∀ n : Nat,
    rs.foldl
        (fun n r =>
          match r.2 with
          | .ok _ => n + 1
          | .error _ => n)
        n =
      n + rs.countP isOkResult := by
  induction rs with
  | nil => intro n; simp
  | cons r rest ih =>
    intro n
    cases hr : r.2 with
    | ok d =>
      rw [List.foldl_cons, List.countP_cons]
      simp only [hr, isOkResult]
      rw [ih, if_pos trivial]
      ring
    | error e =>
      rw [List.foldl_cons, List.countP_cons]
      simp only [hr, isOkResult]
      rw [ih]
      simp

theorem countHashed_eq_countP (rs : List DigestResult) :
    countHashed rs = rs.countP isOkResult := by
  have := countHashed_aux rs 0
  simpa [countHashed] using this

theorem countP_lt_length_of_mem_not {α : Type} (l : List α) (p : α → Bool) (x : α)
    (hx : x ∈ l) (hpx : p x = false) : l.countP p < l.length := by
  induction l with
  | nil => cases hx
  | cons a t ih =>
    rcases List.mem_cons.1 hx with he | ht
    · subst he
      rw [List.countP_cons, hpx]
      have := List.countP_le_length (l := t) (p := p)
      simp only [List.length_cons, Bool.false_eq_true, if_false]
      omega
    · rw [List.countP_cons]
      have := ih ht
      by_cases hpa : p a = true <;> simp [hpa, List.length_cons] <;> omega

/-! ## Lemmas: the drain loop of DigestAll can never exit -/

theorem errcOpen_aggLoopStep (st : AggLoopState) (ev : ChanEvent) :
    (aggLoopStep st ev).errcOpen = st.errcOpen := by
  cases ev with
  | result r =>
    cases hr : r.2 with
    | ok d => simp [aggLoopStep, hr]
    | error e => simp [aggLoopStep, hr]
  | cClosed => rfl
  | dirEvent p => rfl
  | dirsClosed => rfl
  | walkErrValue e => rfl

theorem errcOpen_invariant (events : List ChanEvent) : ∀ (st : AggLoopState),
    st.errcOpen = true → (aggLoopRun st events).errcOpen = true := by
  induction events with
  | nil => intro st h; exact h
  | cons ev rest ih =>
    intro st h
    rw [aggLoopRun, List.foldl_cons]
    exact ih (aggLoopStep st ev) (by rw [errcOpen_aggLoopStep]; exact h)

/-- No event can close `errc`, so the exit condition of the drain loop
(line 162) is false after every finite sequence of consumed events: the
loop never breaks, `DigestAll` never returns, and the return path at lines
168-189 is dead code. -/
theorem loop_never_exits (events : List ChanEvent) (st : AggLoopState)
    (h : st.errcOpen = true) : loopExits (aggLoopRun st events) = false := by
  have hi := errcOpen_invariant events st h
  simp [loopExits, hi]

theorem aggLoopRun_dirEvents : ∀ (dirs : List String) (st : AggLoopState),
    aggLoopRun st (dirs.map ChanEvent.dirEvent) =
      { st with discoveredDirs := st.discoveredDirs ++ dirs } := by
  intro dirs
  induction dirs with
  | nil => intro st; simp [aggLoopRun]
  | cons p rest ih =>
    intro st
    rw [List.map_cons, aggLoopRun, List.foldl_cons]
    have hstep : aggLoopStep st (ChanEvent.dirEvent p) =
        { st with discoveredDirs := st.discoveredDirs ++ [p] } := rfl
    rw [hstep]
    have := ih { st with discoveredDirs := st.discoveredDirs ++ [p] }
    rw [aggLoopRun] at this
    rw [this]
    simp

theorem aggLoopRun_results : ∀ (rs : List DigestResult) (st : AggLoopState),
    aggLoopRun st (rs.map ChanEvent.result) =
      ⟨st.cOpen, st.dirsOpen, st.errcOpen, rs.foldl processResult st.hashesToPaths,
        st.discoveredDirs, st.filesHashed + rs.countP isOkResult, st.finalWalkErr⟩ := by
  intro rs
  induction rs with
  | nil =>
    intro st
    simp [aggLoopRun]
  | cons r rest ih =>
    intro st
    obtain ⟨c, dp, ec, ht, dd, fh, fw⟩ := st
    rw [List.map_cons, aggLoopRun, List.foldl_cons, List.foldl_cons, List.countP_cons]
    cases hr : r.2 with
    | ok d =>
      have hstep : aggLoopStep ⟨c, dp, ec, ht, dd, fh, fw⟩ (ChanEvent.result r) =
          ⟨c, dp, ec, appendAt ht (hexEncodeToString d) r.1, dd, fh + 1, fw⟩ := by
        simp [aggLoopStep, hr]
      have hpr : processResult ht r = appendAt ht (hexEncodeToString d) r.1 := by
        simp [processResult, hr]
      rw [hstep, hpr]
      have hrec := ih ⟨c, dp, ec, appendAt ht (hexEncodeToString d) r.1, dd, fh + 1, fw⟩
      rw [aggLoopRun] at hrec
      rw [hrec]
      have hok : (if isOkResult r = true then 1 else 0) = 1 := by
        simp [isOkResult, hr]
      rw [hok]
      have hcount : fh + 1 + List.countP isOkResult rest =
          fh + (List.countP isOkResult rest + 1) := by
        omega
      rw [hcount]
    | error e =>
      have hstep : aggLoopStep ⟨c, dp, ec, ht, dd, fh, fw⟩ (ChanEvent.result r) =
          ⟨c, dp, ec, ht, dd, fh, fw⟩ := by
        simp [aggLoopStep, hr]
      have hpr : processResult ht r = ht := by
        simp [processResult, hr]
      rw [hstep, hpr]
      have hrec := ih ⟨c, dp, ec, ht, dd, fh, fw⟩
      rw [aggLoopRun] at hrec
      rw [hrec]
      have hok : (if isOkResult r = true then 1 else 0) = 0 := by
        simp [isOkResult, hr]
      rw [hok, Nat.add_zero]

/-- The in-memory state after the drain loop has consumed every event an
uncancelled run can deliver (in the canonical order): the accumulated
`hashesToPaths` is exactly `buildTable` over the digest results, the
directories and counters are filled, `finalWalkErr` is nil — and `errc` is
still non-nil, so the loop does not exit at this point (or ever). -/
theorem aggLoopRun_runEvents (hashFile : String → Except GoError HashBytes) (root : String)
    (entries : List WalkEntry) :
    aggLoopRun aggInitState (runEvents hashFile root entries) =
      ⟨false, false, true,
        buildTable (digestResults hashFile (walkFilePaths root entries false)),
        walkDirPaths root entries false,
        countHashed (digestResults hashFile (walkFilePaths root entries false)),
        none⟩ := by
  rw [runEvents, aggLoopRun, List.foldl_append, List.foldl_append]
  have h1 := aggLoopRun_dirEvents (walkDirPaths root entries false) aggInitState
  rw [aggLoopRun] at h1
  rw [h1]
  have h2 := aggLoopRun_results
    (digestResults hashFile (walkFilePaths root entries false))
    { aggInitState with
        discoveredDirs := aggInitState.discoveredDirs ++ walkDirPaths root entries false }
  rw [aggLoopRun] at h2
  rw [h2]
  rw [countHashed_eq_countP]
  simp [aggLoopStep, aggInitState, buildTable]

/-! ## Claims -/

/-- Claim C1 (code bug): the claim speaks of the duplicate table returned by
a completed run, but no run of the current DigestAll ever completes.  On
the happy-path tree (two identical files and one distinct file) the
aggregator does accumulate the two identical files, and only them, together
in one in-memory group keyed by their shared hex digest; but no event
available to the drain loop can close errc, so the exit condition of the
loop is false after every event sequence, the loop never breaks, and the
returned table the claim describes never comes into existence. -/
theorem C1_grouping_never_returned :
    lookupA (hexEncodeToString [1])
        (aggLoopRun aggInitState (runEvents hashTreeC1 "/r" treeC1)).hashesToPaths =
      some ["/r/a.txt", "/r/sub/c.txt"] ∧
      lookupA (hexEncodeToString [2])
        (aggLoopRun aggInitState (runEvents hashTreeC1 "/r" treeC1)).hashesToPaths =
      some ["/r/b.txt"] ∧
      ∀ events : List ChanEvent, loopExits (aggLoopRun aggInitState events) = false := by
  refine ⟨by decide, by decide, fun events => loop_never_exits events aggInitState rfl⟩

/-- Claim C2 (code bug): the duplicates filter the claim describes (keep the
groups with more than one path) is dead code: it sits on the return path
after the drain loop, and the loop can never exit because no event closes
errc.  Applied to the in-memory table of the happy-path run the filter as
written would indeed keep exactly the two-path group and drop the
singleton, but DigestAll never returns any table. -/
theorem C2_duplicates_filter_dead :
    duplicatesOf
        (aggLoopRun aggInitState (runEvents hashTreeC1 "/r" treeC1)).hashesToPaths =
      [(hexEncodeToString [1], ["/r/a.txt", "/r/sub/c.txt"])] ∧
      2 ≤ (["/r/a.txt", "/r/sub/c.txt"] : List String).length ∧
      lookupA (hexEncodeToString [2])
        (duplicatesOf
          (aggLoopRun aggInitState (runEvents hashTreeC1 "/r" treeC1)).hashesToPaths) =
        none ∧
      ∀ events : List ChanEvent, loopExits (aggLoopRun aggInitState events) = false := by
  refine ⟨by decide, by decide, by decide,
    fun events => loop_never_exits events aggInitState rfl⟩


/-- Claim C3: for every sequence of successful digest results, the duplicate
table built by the current aggregator (append under the digest key, then keep
keys with more than one path) agrees, key by key, with the table built by the
`findDuplicates` first-seen promotion rule. -/
theorem C3_aggregator_equals_findDuplicates (rs : List (String × HashBytes)) (k : HashKey) :
    lookupA k (duplicatesOf (buildTable (rs.map fun pr => (pr.1, Except.ok pr.2)))) =
      lookupA k (findDuplicates rs).fileByteMapDups := by
  rw [dupTable_lookupA, findDuplicates_dups_lookupA, pathsFor_map_ok]

/-! ## Lemmas: counter traces -/

theorem runCounters_aux (tr : List TraceEvent) : ∀ c : Counters,
    tr.foldl stepCounters c =
      ⟨c.filesFound + tr.countP isFoundEvent, c.filesHashed + tr.countP isOkEvent⟩ := by
  induction tr with
  | nil => intro c; simp
  | cons e rest ih =>
    intro c
    rw [List.foldl_cons, ih, List.countP_cons, List.countP_cons]
    cases e <;> simp [stepCounters, isFoundEvent, isOkEvent] <;> omega

theorem runCounters_eq (tr : List TraceEvent) :
    runCounters tr = ⟨tr.countP isFoundEvent, tr.countP isOkEvent⟩ := by
  have := runCounters_aux tr ⟨0, 0⟩
  simpa [runCounters] using this

theorem countP_isOk_le_isHash (l : List TraceEvent) :
    l.countP isOkEvent ≤ l.countP isHashEvent := by
  induction l with
  | nil => simp
  | cons e rest ih =>
    rw [List.countP_cons, List.countP_cons]
    cases e <;> simp [isOkEvent, isHashEvent] <;> omega

theorem causal_prefix_le : ∀ (tr : List TraceEvent) (f r : Nat),
    causal f r tr = true → r ≤ f → ∀ n,
      r + (tr.take n).countP isHashEvent ≤ f + (tr.take n).countP isFoundEvent := by
  intro tr
  induction tr with
  | nil =>
    intro f r hc hle n
    simpa using hle
  | cons e rest ih =>
    intro f r hc hle n
    simp only [causal, Bool.and_eq_true, decide_eq_true_eq] at hc
    cases n with
    | zero => simpa using hle
    | succ m =>
      rw [List.take_succ_cons, List.countP_cons, List.countP_cons]
      have hrec := ih _ _ hc.2 hc.1 m
      by_cases hH : isHashEvent e <;> by_cases hF : isFoundEvent e <;>
        simp [hH, hF] at hrec ⊢ <;> omega

theorem countP_take_le_take (l : List TraceEvent) (p : TraceEvent → Bool) (n m : Nat)
    (hnm : n ≤ m) : (l.take n).countP p ≤ (l.take m).countP p := by
  have he : l.take n = (l.take m).take n := by
    rw [List.take_take, Nat.min_eq_left hnm]
  rw [he]
  exact (List.take_sublist n (l.take m)).countP_le p

/-! ## Claims C4 and C7 -/

/-- Claim C4: along every causally well-formed interleaving of walker and
aggregator counter events, filesHashed stays at or below filesFound at every
point, both counters are monotonically increasing, and they can diverge
permanently when a file fails to hash (third conjunct: a concrete trace with
a hash failure ends with filesHashed below filesFound). -/
theorem C4_counters_invariant (tr : List TraceEvent) (hc : causal 0 0 tr = true) :
    (∀ n, (runCounters (tr.take n)).filesHashed ≤ (runCounters (tr.take n)).filesFound) ∧
      (∀ n m, n ≤ m →
        (runCounters (tr.take n)).filesFound ≤ (runCounters (tr.take m)).filesFound ∧
          (runCounters (tr.take n)).filesHashed ≤ (runCounters (tr.take m)).filesHashed) ∧
      (runCounters [TraceEvent.found "p", TraceEvent.hashedErr "p"]).filesHashed <
        (runCounters [TraceEvent.found "p", TraceEvent.hashedErr "p"]).filesFound := by
  refine ⟨fun n => ?_, fun n m hnm => ?_, by decide⟩
  · simp only [runCounters_eq]
    have h1 := countP_isOk_le_isHash (tr.take n)
    have h2 := causal_prefix_le tr 0 0 hc (Nat.le_refl 0) n
    simp only [Nat.zero_add] at h2
    exact h1.trans h2
  · simp only [runCounters_eq]
    exact ⟨countP_take_le_take tr isFoundEvent n m hnm,
      countP_take_le_take tr isOkEvent n m hnm⟩

/-- Witness for C4_counters_invariant on a concrete four-event trace. -/
theorem C4_witness :
    (runCounters (([TraceEvent.found "p", TraceEvent.hashedOk "p" [0],
          TraceEvent.found "q", TraceEvent.hashedErr "q"]).take 4)).filesHashed ≤
      (runCounters (([TraceEvent.found "p", TraceEvent.hashedOk "p" [0],
          TraceEvent.found "q", TraceEvent.hashedErr "q"]).take 4)).filesFound :=
  (C4_counters_invariant [TraceEvent.found "p", TraceEvent.hashedOk "p" [0],
      TraceEvent.found "q", TraceEvent.hashedErr "q"] (by decide)).1 4

/-- Claim C7 (code bug): with an already-cancelled context the walker does
emit nothing and reports ctx.Err() — empty streams, cancellation outcome
distinct from every ordinary walk error — but DigestAll does not return it:
the drain loop consumes the cancellation value from errc (ok is true, so
errc stays non-nil), and after c and dirPaths close no further event can
arrive, none could close errc anyway, so the exit condition stays false and
the call blocks forever instead of returning, for any worker count. -/
theorem C7_precancelled_blocks :
    walkFilePaths "/r" treeC1 true = [] ∧
      walkDirPaths "/r" treeC1 true = [] ∧
      walkOutcome true = some GoError.canceled ∧
      (∀ msg, GoError.canceled ≠ GoError.errMsg msg) ∧
      aggLoopRun aggInitState
          [ChanEvent.walkErrValue (some GoError.canceled), ChanEvent.cClosed,
            ChanEvent.dirsClosed] =
        ⟨false, false, true, [], [], 0, some GoError.canceled⟩ ∧
      ∀ events : List ChanEvent, loopExits (aggLoopRun aggInitState events) = false := by
  refine ⟨rfl, rfl, rfl, ?_, by decide, ?_⟩
  · intro msg h
    cases h
  · intro events
    exact loop_never_exits events aggInitState rfl


/-! ## Claims C5, C6, C8 (corrected) -/

/-- Counterexample to claim C5: the current fswalk.go DigestAll performs no
argument validation and never fails fast.  Invoked with a nil hash function
and numWorkers 0 on a tree of two directories and no regular files, the
body starts the traversal at once: the walk delivers the subdirectory and a
nil walk outcome, the closer closes c immediately (zero workers), and after
the loop has consumed every available event no configuration error (indeed
no value at all) has been surfaced — and the loop can never exit, because
errc is never closed. -/
theorem C5_counterexample :
    aggLoopRun aggInitState
        [ChanEvent.dirEvent "/r/sub", ChanEvent.dirsClosed, ChanEvent.cClosed,
          ChanEvent.walkErrValue none] =
      ⟨false, false, true, [], ["/r/sub"], 0, none⟩ ∧
      loopExits (⟨false, false, true, [], ["/r/sub"], 0, none⟩ : AggLoopState) = false := by
  exact ⟨by decide, by decide⟩

/-- Claim C5 as amended: the current DigestAll performs no argument
validation and never returns at all (the drain loop cannot exit); only the
superseded validating variant fails immediately on a nil hash function or
on numWorkers below 1, returning a configuration error with empty results,
independent of the tree and of the cancellation state. -/
theorem C5_amended_validating_variant (hasher : Option (String → Except GoError HashBytes))
    (numWorkers : Int) (countersPresent : Bool) (root : String) (entries : List WalkEntry)
    (cancelled : Bool) (hbad : hasher = none ∨ numWorkers < 1) :
    (∀ events : List ChanEvent, loopExits (aggLoopRun aggInitState events) = false) ∧
      ∃ msg,
        DigestAllChecked hasher numWorkers countersPresent root entries cancelled =
            ⟨none, [], some (GoError.errMsg msg)⟩ ∧
          ∀ entries2 cancelled2,
            DigestAllChecked hasher numWorkers countersPresent root entries2 cancelled2 =
              DigestAllChecked hasher numWorkers countersPresent root entries cancelled := by
  refine ⟨fun events => loop_never_exits events aggInitState rfl, ?_⟩
  cases hasher with
  | none =>
    exact ⟨"fswalk.DigestAll: provided hash function cannot be nil", rfl, fun _ _ => rfl⟩
  | some h =>
    have hlt : numWorkers < 1 := by
      rcases hbad with hnone | hlt
      · exact absurd hnone (by simp)
      · exact hlt
    refine ⟨"fswalk.DigestAll: numWorkers must be at least 1, got " ++ toString numWorkers,
      ?_, ?_⟩
    · simp only [DigestAllChecked]
      rw [if_pos hlt]
    · intro entries2 cancelled2
      simp only [DigestAllChecked]
      rw [if_pos hlt, if_pos hlt]

/-- Witness for C5_amended_validating_variant: the nil-hasher case. -/
theorem C5_witness :
    ((none : Option (String → Except GoError HashBytes)) = none ∨ (4 : Int) < 1) ∧
      ((∀ events : List ChanEvent, loopExits (aggLoopRun aggInitState events) = false) ∧
        ∃ msg,
          DigestAllChecked none 4 true "/r" scenarioEntries false =
              ⟨none, [], some (GoError.errMsg msg)⟩ ∧
            ∀ entries2 cancelled2,
              DigestAllChecked none 4 true "/r" entries2 cancelled2 =
                DigestAllChecked none 4 true "/r" scenarioEntries false) :=
  ⟨Or.inl rfl,
    C5_amended_validating_variant none 4 true "/r" scenarioEntries false (Or.inl rfl)⟩

/-- Counterexample to claim C6: a run that hashed two identical files and
then observed cancellation holds the two-path group in memory, yet after
every available event has been consumed the exit condition of the drain
loop is still false: DigestAll returns neither the partial tables nor
anything else.  Moreover the unreachable return path modelled by
finishDigestAll would return nil for the duplicates map, dropping the
accumulated group, even if it did run. -/
theorem C6_counterexample :
    (aggLoopRun aggInitState
        [ChanEvent.result ("/r/a", Except.ok scenarioDigest),
          ChanEvent.result ("/r/c", Except.ok scenarioDigest),
          ChanEvent.cClosed, ChanEvent.dirsClosed,
          ChanEvent.walkErrValue (some GoError.canceled)]).hashesToPaths =
      [(['6', '1'], ["/r/a", "/r/c"])] ∧
      loopExits (aggLoopRun aggInitState
        [ChanEvent.result ("/r/a", Except.ok scenarioDigest),
          ChanEvent.result ("/r/c", Except.ok scenarioDigest),
          ChanEvent.cClosed, ChanEvent.dirsClosed,
          ChanEvent.walkErrValue (some GoError.canceled)]) = false ∧
      finishDigestAll [(['6', '1'], ["/r/a", "/r/c"])] ["/r/sub"] none
        (some GoError.canceled) = (none, ["/r/sub"], some GoError.canceled) := by
  exact ⟨by decide, by decide, rfl⟩

/-- Claim C6 as amended: on a run with a non-nil outcome DigestAll returns
nothing at all — the drain loop can never exit — and the return path of
lines 168-189 is dead code which, were it reachable, would return only the
partial discovered-directories list and a nil duplicate map alongside the
propagated outcome, dropping the partially accumulated groups. -/
theorem C6_nothing_returned (hashesToPaths : List (HashKey × List String))
    (dirs : List String) (walkErr ctxErr : Option GoError)
    (hbad : ctxErr ≠ none ∨ walkErr ≠ none) :
    (∀ events : List ChanEvent, loopExits (aggLoopRun aggInitState events) = false) ∧
      ∃ e, finishDigestAll hashesToPaths dirs walkErr ctxErr = (none, dirs, some e) ∧
        (ctxErr = some e ∨ (ctxErr = none ∧ walkErr = some e)) := by
  refine ⟨fun events => loop_never_exits events aggInitState rfl, ?_⟩
  cases ctxErr with
  | some e => exact ⟨e, rfl, Or.inl rfl⟩
  | none =>
    cases walkErr with
    | none =>
      rcases hbad with h | h <;> exact absurd rfl h
    | some e => exact ⟨e, rfl, Or.inr ⟨rfl, rfl⟩⟩

/-- Witness for C6_nothing_returned at the state of the counterexample. -/
theorem C6_witness :
    ((some GoError.canceled : Option GoError) ≠ none ∨ (none : Option GoError) ≠ none) ∧
      ((∀ events : List ChanEvent, loopExits (aggLoopRun aggInitState events) = false) ∧
        ∃ e,
          finishDigestAll [(['6', '1'], ["/r/a", "/r/c"])] ["/r/sub"] none
              (some GoError.canceled) = (none, ["/r/sub"], some e) ∧
            ((some GoError.canceled : Option GoError) = some e ∨
              ((some GoError.canceled : Option GoError) = none ∧
                (none : Option GoError) = some e))) :=
  ⟨Or.inl (by simp),
    C6_nothing_returned [(['6', '1'], ["/r/a", "/r/c"])] ["/r/sub"] none
      (some GoError.canceled) (Or.inl (by simp))⟩

/-- Counterexample to the concrete scenario of claim C8: at the scenario-D
input (three identical files, one hash failure) the in-memory counters do
reach filesFound 3 and filesHashed 2, but the in-memory duplicate view is
NOT empty — the two successfully hashed copies form a group — and the run
never completes, so neither a table nor a nil outcome is ever yielded. -/
theorem C8_counterexample :
    (aggLoopRun aggInitState (runEvents scenarioHashFile "/r" scenarioEntries)).filesHashed =
      2 ∧
      filesFoundCount "/r" scenarioEntries false = 3 ∧
      duplicatesOf (aggLoopRun aggInitState
          (runEvents scenarioHashFile "/r" scenarioEntries)).hashesToPaths =
        [(['6', '1'], ["/r/a", "/r/c"])] ∧
      duplicatesOf (aggLoopRun aggInitState
          (runEvents scenarioHashFile "/r" scenarioEntries)).hashesToPaths ≠ [] ∧
      loopExits
          (aggLoopRun aggInitState (runEvents scenarioHashFile "/r" scenarioEntries)) =
        false := by
  refine ⟨by decide, by decide, by decide, by decide, by decide⟩

/-- Claim C8 as amended: a digest result carrying a per-file hashing error
contributes nothing to the in-memory state: the failed path is excluded
from the accumulated hashesToPaths table and from every group of its
duplicates filter, and filesHashed stays strictly below the number of files
found; but no run outcome — nil or otherwise — is ever produced, because
the drain loop never exits.  At the scenario-D input the in-memory counters
reach filesFound 3 and filesHashed 2 and the in-memory duplicate view is a
single group holding the two successfully hashed paths. -/
theorem C8_failed_hash_excluded (root : String) (entries : List WalkEntry)
    (hashFile : String → Except GoError HashBytes) (p : String) (e : GoError)
    (hp : p ∈ walkFilePaths root entries false) (he : hashFile p = Except.error e) :
    (∀ k ps,
      lookupA k (buildTable (digestResults hashFile (walkFilePaths root entries false))) =
        some ps → p ∉ ps) ∧
      (∀ k ps,
        lookupA k (duplicatesOf
            (buildTable (digestResults hashFile (walkFilePaths root entries false)))) =
          some ps → p ∉ ps) ∧
      countHashed (digestResults hashFile (walkFilePaths root entries false)) <
        (walkFilePaths root entries false).length ∧
      (∀ events : List ChanEvent, loopExits (aggLoopRun aggInitState events) = false) ∧
      (aggLoopRun aggInitState
          (runEvents scenarioHashFile "/r" scenarioEntries)).filesHashed = 2 ∧
      filesFoundCount "/r" scenarioEntries false = 3 ∧
      duplicatesOf (aggLoopRun aggInitState
          (runEvents scenarioHashFile "/r" scenarioEntries)).hashesToPaths =
        [(['6', '1'], ["/r/a", "/r/c"])] := by
  have hnotin : ∀ k ps,
      lookupA k (buildTable (digestResults hashFile (walkFilePaths root entries false))) =
        some ps → p ∉ ps := by
    intro k ps hlk hmem
    rw [buildTable_lookupA] at hlk
    by_cases hempty : pathsFor k (digestResults hashFile (walkFilePaths root entries false)) = []
    · rw [if_pos hempty] at hlk
      exact absurd hlk (by simp)
    · rw [if_neg hempty] at hlk
      obtain rfl : pathsFor k (digestResults hashFile (walkFilePaths root entries false)) = ps :=
        Option.some.inj hlk
      obtain ⟨-, d, hd, -⟩ := of_mem_pathsFor_digestResults k hashFile _ p hmem
      rw [he] at hd
      exact absurd hd (by simp)
  refine ⟨hnotin, ?_, ?_, fun events => loop_never_exits events aggInitState rfl,
    by decide, by decide, by decide⟩
  · intro k ps hlk hmem
    rw [dupTable_lookupA] at hlk
    by_cases hl : 1 < (pathsFor k
        (digestResults hashFile (walkFilePaths root entries false))).length
    · rw [if_pos hl] at hlk
      obtain rfl : pathsFor k (digestResults hashFile (walkFilePaths root entries false)) = ps :=
        Option.some.inj hlk
      obtain ⟨-, d, hd, -⟩ := of_mem_pathsFor_digestResults k hashFile _ p hmem
      rw [he] at hd
      exact absurd hd (by simp)
    · rw [if_neg hl] at hlk
      exact absurd hlk (by simp)
  · rw [countHashed_eq_countP]
    have hlen : (digestResults hashFile (walkFilePaths root entries false)).length =
        (walkFilePaths root entries false).length := by
      simp [digestResults]
    rw [← hlen]
    apply countP_lt_length_of_mem_not _ _ (p, hashFile p)
    · exact List.mem_map.2 ⟨p, hp, rfl⟩
    · simp [isOkResult, he]

/-- Witness for C8_failed_hash_excluded at the scenario-D run. -/
theorem C8_witness :
    countHashed (digestResults scenarioHashFile (walkFilePaths "/r" scenarioEntries false)) <
      (walkFilePaths "/r" scenarioEntries false).length :=
  (C8_failed_hash_excluded "/r" scenarioEntries scenarioHashFile "/r/b"
    (GoError.errMsg "read failure") (by decide) rfl).2.2.1


/-! ## Lemmas: hardlinkDuplicates per-candidate behaviour -/

theorem hardlinkCandidate_noop (fs : LinkFS) (c : Nat) (o d : String) (hs : settled fs o d) :
    hardlinkCandidate fs c o d = (fs, c) := by
  cases ho : fs o with
  | none => simp [hardlinkCandidate, areFilesHardLinked, ho]
  | some i =>
    cases hd : fs d with
    | none => simp [hardlinkCandidate, areFilesHardLinked, ho, hd]
    | some j =>
      have hij : i = j := hs i j ho hd
      subst hij
      simp [hardlinkCandidate, areFilesHardLinked, ho, hd]

theorem hardlinkCandidate_self (fs : LinkFS) (c : Nat) (o : String) :
    hardlinkCandidate fs c o o = (fs, c) :=
  hardlinkCandidate_noop fs c o o (fun i j h1 h2 => Option.some.inj (h1.symm.trans h2))

theorem hardlinkCandidate_frame (fs : LinkFS) (c : Nat) (o d q : String) (hq : q ≠ d) :
    (hardlinkCandidate fs c o d).1 q = fs q := by
  cases ho : fs o with
  | none => simp [hardlinkCandidate, areFilesHardLinked, ho]
  | some i =>
    cases hd : fs d with
    | none => simp [hardlinkCandidate, areFilesHardLinked, ho, hd]
    | some j =>
      by_cases hij : i = j
      · subst hij
        simp [hardlinkCandidate, areFilesHardLinked, ho, hd]
      · have hod : o ≠ d := fun he => hij (Option.some.inj ((he ▸ ho).symm.trans hd))
        simp only [hardlinkCandidate, areFilesHardLinked, ho, hd, osRemove, osLink, hij,
          decide_eq_true_eq, if_neg hod, hq]
        simp [hq, hod]

theorem hardlinkCandidate_settles (fs : LinkFS) (c : Nat) (o d : String) :
    settled (hardlinkCandidate fs c o d).1 o d := by
  cases ho : fs o with
  | none =>
    intro i j h1 h2
    simp only [hardlinkCandidate, areFilesHardLinked, ho] at h1
    exact absurd h1 (by simp)
  | some i0 =>
    cases hd : fs d with
    | none =>
      intro i j h1 h2
      simp only [hardlinkCandidate, areFilesHardLinked, ho, hd] at h2
      exact absurd h2 (by simp)
    | some j0 =>
      by_cases hij : i0 = j0
      · subst hij
        intro i j h1 h2
        simp [hardlinkCandidate, areFilesHardLinked, ho, hd] at h1 h2
        omega
      · have hod : o ≠ d := fun he => hij (Option.some.inj ((he ▸ ho).symm.trans hd))
        intro i j h1 h2
        simp [hardlinkCandidate, areFilesHardLinked, osRemove, osLink, ho, hd, hij, hod] at h1 h2
        omega

theorem hardlinkCandidate_preserves_settled_frame (fs : LinkFS) (c : Nat)
    (o' d' o d : String) (ho : o ≠ d') (hd : d ≠ d') (hs : settled fs o d) :
    settled (hardlinkCandidate fs c o' d').1 o d := by
  intro i j h1 h2
  rw [hardlinkCandidate_frame fs c o' d' o ho] at h1
  rw [hardlinkCandidate_frame fs c o' d' d hd] at h2
  exact hs i j h1 h2

theorem hardlinkCandidate_preserves_settled_same (fs : LinkFS) (c : Nat) (o d d' : String)
    (hs : settled fs o d) : settled (hardlinkCandidate fs c o d').1 o d := by
  by_cases hdd : d' = d
  · subst hdd
    exact hardlinkCandidate_settles fs c o d'
  · by_cases hdo : d' = o
    · subst hdo
      rw [hardlinkCandidate_self]
      exact hs
    · exact hardlinkCandidate_preserves_settled_frame fs c o d' o d
        (fun he => hdo he.symm) (fun he => hdd he.symm) hs

/-! ## Lemmas: hardlinkDuplicates group and table folds -/

theorem hardlinkFold_frame : ∀ (dups : List String) (acc : LinkFS × Nat) (o q : String),
    (∀ x ∈ dups, q ≠ x) →
    ((dups.foldl (fun a x => hardlinkCandidate a.1 a.2 o x) acc)).1 q = acc.1 q := by
  intro dups
  induction dups with
  | nil => intro acc o q h; rfl
  | cons d' rest ih =>
    intro acc o q h
    rw [List.foldl_cons]
    rw [ih (hardlinkCandidate acc.1 acc.2 o d') o q
      (fun x hx => h x (List.mem_cons_of_mem d' hx))]
    exact hardlinkCandidate_frame acc.1 acc.2 o d' q (h d' (List.mem_cons_self d' rest))

theorem hardlinkFold_orig : ∀ (dups : List String) (acc : LinkFS × Nat) (o : String),
    ((dups.foldl (fun a x => hardlinkCandidate a.1 a.2 o x) acc)).1 o = acc.1 o := by
  intro dups
  induction dups with
  | nil => intro acc o; rfl
  | cons d' rest ih =>
    intro acc o
    rw [List.foldl_cons, ih]
    by_cases hdo : d' = o
    · subst hdo
      rw [hardlinkCandidate_self]
    · exact hardlinkCandidate_frame acc.1 acc.2 o d' o (fun he => hdo he.symm)

theorem hardlinkFold_preserves_settled_same : ∀ (dups : List String) (acc : LinkFS × Nat)
    (o d : String), settled acc.1 o d →
    settled ((dups.foldl (fun a x => hardlinkCandidate a.1 a.2 o x) acc)).1 o d := by
  intro dups
  induction dups with
  | nil => intro acc o d hs; exact hs
  | cons d' rest ih =>
    intro acc o d hs
    rw [List.foldl_cons]
    exact ih _ o d (hardlinkCandidate_preserves_settled_same acc.1 acc.2 o d d' hs)

theorem hardlinkFold_preserves_settled_frame : ∀ (dups : List String) (acc : LinkFS × Nat)
    (o' o d : String), (∀ x ∈ dups, x ≠ o ∧ x ≠ d) → settled acc.1 o d →
    settled ((dups.foldl (fun a x => hardlinkCandidate a.1 a.2 o' x) acc)).1 o d := by
  intro dups
  induction dups with
  | nil => intro acc o' o d hx hs; exact hs
  | cons d' rest ih =>
    intro acc o' o d hx hs
    rw [List.foldl_cons]
    refine ih _ o' o d (fun x h => hx x (List.mem_cons_of_mem d' h)) ?_
    have hd' := hx d' (List.mem_cons_self d' rest)
    exact hardlinkCandidate_preserves_settled_frame acc.1 acc.2 o' d' o d
      (fun he => hd'.1 he.symm) (fun he => hd'.2 he.symm) hs

theorem hardlinkFold_settles : ∀ (dups : List String) (acc : LinkFS × Nat) (o : String),
    ∀ d ∈ dups,
      settled ((dups.foldl (fun a x => hardlinkCandidate a.1 a.2 o x) acc)).1 o d := by
  intro dups
  induction dups with
  | nil => intro acc o d hd; cases hd
  | cons d' rest ih =>
    intro acc o d hd
    rw [List.foldl_cons]
    rcases List.mem_cons.1 hd with he | hm
    · subst he
      exact hardlinkFold_preserves_settled_same rest _ o d
        (hardlinkCandidate_settles acc.1 acc.2 o d)
    · exact ih _ o d hm

theorem hardlinkFold_noop : ∀ (dups : List String) (acc : LinkFS × Nat) (o : String),
    (∀ d ∈ dups, settled acc.1 o d) →
    dups.foldl (fun a x => hardlinkCandidate a.1 a.2 o x) acc = acc := by
  intro dups
  induction dups with
  | nil => intro acc o h; rfl
  | cons d' rest ih =>
    intro acc o h
    rw [List.foldl_cons]
    have hstep : hardlinkCandidate acc.1 acc.2 o d' = acc := by
      obtain ⟨fs, c⟩ := acc
      exact hardlinkCandidate_noop fs c o d' (h d' (List.mem_cons_self d' rest))
    rw [hstep]
    exact ih acc o (fun d hd => h d (List.mem_cons_of_mem d' hd))

theorem hardlinkRun_preserves_settled : ∀ (groups : List (HashKey × List String))
    (acc : LinkFS × Nat) (o d : String),
    (∀ kv ∈ groups, ∀ x ∈ kv.2.tail, x ≠ o ∧ x ≠ d) → settled acc.1 o d →
    settled ((groups.foldl (fun a kv => hardlinkGroup a kv.2) acc)).1 o d := by
  intro groups
  induction groups with
  | nil => intro acc o d hx hs; exact hs
  | cons g rest ih =>
    intro acc o d hx hs
    rw [List.foldl_cons]
    refine ih _ o d (fun kv h => hx kv (List.mem_cons_of_mem g h)) ?_
    cases hg2 : g.2 with
    | nil => exact hs
    | cons o' dups =>
      have harg : ∀ x ∈ dups, x ≠ o ∧ x ≠ d := by
        intro x h
        exact hx g (List.mem_cons_self g rest) x (by rw [hg2]; exact h)
      exact hardlinkFold_preserves_settled_frame dups acc o' o d harg hs

theorem hardlinkRun_settles : ∀ (groups : List (HashKey × List String)) (acc : LinkFS × Nat),
    groups.Pairwise (fun a b => ∀ p ∈ a.2, ∀ q ∈ b.2, p ≠ q) →
    AllSettled ((groups.foldl (fun a kv => hardlinkGroup a kv.2) acc)).1 groups := by
  intro groups
  induction groups with
  | nil => intro acc hpw kv hkv; cases hkv
  | cons g rest ih =>
    intro acc hpw
    rw [List.pairwise_cons] at hpw
    obtain ⟨hg, hrest⟩ := hpw
    rw [List.foldl_cons]
    intro kv hkv o dups hkv2 d hd
    rcases List.mem_cons.1 hkv with he | hm
    · subst he
      have h1 : settled ((hardlinkGroup acc kv.2)).1 o d := by
        rw [hkv2]
        exact hardlinkFold_settles dups acc o d hd
      refine hardlinkRun_preserves_settled rest _ o d ?_ h1
      intro kv' hkv' x hx
      have hdisj := hg kv' hkv'
      have hxmem : x ∈ kv'.2 := (List.tail_sublist kv'.2).subset hx
      constructor
      · intro he2
        exact hdisj o (by rw [hkv2]; exact List.mem_cons_self o dups) x hxmem he2.symm
      · intro he2
        exact hdisj d (by rw [hkv2]; exact List.mem_cons_of_mem o hd) x hxmem he2.symm
    · exact ih (hardlinkGroup acc g.2) hrest kv hm o dups hkv2 d hd

theorem hardlinkRun_noop : ∀ (groups : List (HashKey × List String)) (acc : LinkFS × Nat),
    AllSettled acc.1 groups →
    groups.foldl (fun a kv => hardlinkGroup a kv.2) acc = acc := by
  intro groups
  induction groups with
  | nil => intro acc h; rfl
  | cons g rest ih =>
    intro acc hall
    rw [List.foldl_cons]
    have hg : hardlinkGroup acc g.2 = acc := by
      cases hg2 : g.2 with
      | nil => rfl
      | cons o dups =>
        exact hardlinkFold_noop dups acc o
          (fun d hd => hall g (List.mem_cons_self g rest) o dups hg2 d hd)
    rw [hg]
    exact ih acc (fun kv hkv => hall kv (List.mem_cons_of_mem g hkv))

/-! ## Lemmas: groups built by findDuplicates are pairwise disjoint -/

theorem lookupA_eq_of_mem {α β : Type} [DecidableEq α] (m : List (α × β))
    (hnd : (keysA m).Nodup) (k : α) (v : β) (hm : (k, v) ∈ m) : lookupA k m = some v := by
  induction m with
  | nil => cases hm
  | cons kv rest ih =>
    obtain ⟨k', v'⟩ := kv
    rw [keysA, List.map_cons] at hnd
    have hnd1 : k' ∉ List.map Prod.fst rest := (List.nodup_cons.1 hnd).1
    have hnd2 : (List.map Prod.fst rest).Nodup := (List.nodup_cons.1 hnd).2
    rcases List.mem_cons.1 hm with he | hm2
    · obtain ⟨rfl, rfl⟩ : k = k' ∧ v = v' := Prod.mk.injEq .. ▸ he
      simp [lookupA]
    · have hne : k' ≠ k := by
        intro he2
        subst he2
        exact hnd1 (List.mem_map.2 ⟨(k', v), hm2, rfl⟩)
      simp only [lookupA, if_neg hne]
      exact ih hnd2 hm2

theorem of_mem_pathsForOk (k : HashKey) (rs : List (String × HashBytes)) (q : String)
    (hq : q ∈ pathsForOk k rs) : ∃ d, (q, d) ∈ rs ∧ hexEncodeToString d = k := by
  obtain ⟨pr, hpr, hval⟩ := List.mem_filterMap.1 hq
  by_cases hk : hexEncodeToString pr.2 = k
  · rw [if_pos hk] at hval
    obtain rfl : pr.1 = q := Option.some.inj hval
    exact ⟨pr.2, by simpa using hpr, hk⟩
  · rw [if_neg hk] at hval
    exact absurd hval (by simp)

theorem snd_unique_of_nodup_fst (rs : List (String × HashBytes))
    (hnd : (rs.map Prod.fst).Nodup) (p : String) (d1 d2 : HashBytes)
    (h1 : (p, d1) ∈ rs) (h2 : (p, d2) ∈ rs) : d1 = d2 := by
  induction rs with
  | nil => cases h1
  | cons pr rest ih =>
    rw [List.map_cons] at hnd
    have hnd1 : pr.1 ∉ List.map Prod.fst rest := (List.nodup_cons.1 hnd).1
    have hnd2 : (List.map Prod.fst rest).Nodup := (List.nodup_cons.1 hnd).2
    rcases List.mem_cons.1 h1 with he1 | hm1
    · rcases List.mem_cons.1 h2 with he2 | hm2
      · have he := he1.trans he2.symm
        exact (Prod.mk.injEq .. ▸ he).2
      · exfalso
        apply hnd1
        have hp1 : pr.1 = p := by rw [← he1]
        rw [hp1]
        exact List.mem_map.2 ⟨(p, d2), hm2, rfl⟩
    · rcases List.mem_cons.1 h2 with he2 | hm2
      · exfalso
        apply hnd1
        have hp1 : pr.1 = p := by rw [← he2]
        rw [hp1]
        exact List.mem_map.2 ⟨(p, d1), hm1, rfl⟩
      · exact ih hnd2 hm1 hm2

theorem findDuplicates_group_eq (rs : List (String × HashBytes)) (k : HashKey)
    (ps : List String) (hm : (k, ps) ∈ (findDuplicates rs).fileByteMapDups) :
    ps = pathsForOk k rs ∧ 1 < (pathsForOk k rs).length := by
  have hlk := lookupA_eq_of_mem _ (findDuplicates_dups_keys_nodup rs) k ps hm
  rw [findDuplicates_dups_lookupA] at hlk
  by_cases hl : 1 < (pathsForOk k rs).length
  · rw [if_pos hl] at hlk
    exact ⟨(Option.some.inj hlk).symm, hl⟩
  · rw [if_neg hl] at hlk
    exact absurd hlk (by simp)

theorem findDuplicates_groups_pairwise_disjoint (rs : List (String × HashBytes))
    (hnd : (rs.map Prod.fst).Nodup) :
    ((findDuplicates rs).fileByteMapDups).Pairwise
      (fun a b => ∀ p ∈ a.2, ∀ q ∈ b.2, p ≠ q) := by
  have hkeys := findDuplicates_dups_keys_nodup rs
  have hpw : ((findDuplicates rs).fileByteMapDups).Pairwise (fun a b => a.1 ≠ b.1) :=
    List.pairwise_map.1 hkeys
  refine hpw.imp_of_mem ?_
  intro a b ha hb hne p hpa q hqb he
  subst he
  obtain ⟨hea, -⟩ := findDuplicates_group_eq rs a.1 a.2 (by simpa using ha)
  obtain ⟨heb, -⟩ := findDuplicates_group_eq rs b.1 b.2 (by simpa using hb)
  rw [hea] at hpa
  rw [heb] at hqb
  obtain ⟨d1, hd1, hk1⟩ := of_mem_pathsForOk a.1 rs p hpa
  obtain ⟨d2, hd2, hk2⟩ := of_mem_pathsForOk b.1 rs p hqb
  have hdd : d1 = d2 := snd_unique_of_nodup_fst rs hnd p d1 d2 hd1 hd2
  exact hne (hk1.symm.trans (hdd ▸ hk2))

/-! ## Claims C9 and C10 -/

/-- Claim C9: consolidation is idempotent on the duplicate tables the
program builds: for every sequence of successful digest results with
pairwise distinct paths (every path is a key of the Go map fileMap, hence
unique), running hardlinkDuplicates a second time immediately after a first
run on the same filesystem performs zero replacements — after the first run
every candidate already denotes the same storage object as the designated
original of its group and is skipped by the areFilesHardLinked check. -/
theorem C9_consolidation_idempotent (fs : LinkFS) (rs : List (String × HashBytes))
    (hnd : (rs.map Prod.fst).Nodup) :
    (hardlinkDuplicates
        ((hardlinkDuplicates fs (findDuplicates rs).fileByteMapDups)).1
        (findDuplicates rs).fileByteMapDups).2 = 0 := by
  have hset : AllSettled ((hardlinkDuplicates fs (findDuplicates rs).fileByteMapDups)).1
      (findDuplicates rs).fileByteMapDups := by
    rw [hardlinkDuplicates]
    exact hardlinkRun_settles _ (fs, 0) (findDuplicates_groups_pairwise_disjoint rs hnd)
  rw [hardlinkDuplicates,
    hardlinkRun_noop ((findDuplicates rs).fileByteMapDups)
      (((hardlinkDuplicates fs (findDuplicates rs).fileByteMapDups)).1, 0) hset]

/-- Witness for C9_consolidation_idempotent: three distinct paths sharing
one digest on a filesystem of three distinct storage objects. -/
theorem C9_witness :
    (hardlinkDuplicates
        ((hardlinkDuplicates scenarioFS (findDuplicates scenarioResults).fileByteMapDups)).1
        (findDuplicates scenarioResults).fileByteMapDups).2 = 0 :=
  C9_consolidation_idempotent scenarioFS scenarioResults (by decide)

/-- Claim C10: processing one duplicate group only ever mutates the
candidate paths (the tail of the group): whatever the per-candidate stat,
remove or link outcomes, every path outside the candidate list — in
particular the designated original at the head of the group — keeps its
filesystem entry. -/
theorem C10_original_never_replaced (fs : LinkFS) (c : Nat) (originalPath : String)
    (duplicatePaths : List String) (q : String) (hq : q ∉ duplicatePaths) :
    ((hardlinkGroup (fs, c) (originalPath :: duplicatePaths))).1 originalPath =
        fs originalPath ∧
      ((hardlinkGroup (fs, c) (originalPath :: duplicatePaths))).1 q = fs q := by
  constructor
  · exact hardlinkFold_orig duplicatePaths (fs, c) originalPath
  · exact hardlinkFold_frame duplicatePaths (fs, c) originalPath q
      (fun x hx he => hq (he ▸ hx))

/-- Witness for C10_original_never_replaced: an uninvolved path and the
original keep their entries across a group consolidation. -/
theorem C10_witness :
    ((hardlinkGroup (scenarioFS, 0) ["/r/a", "/r/b", "/r/c"])).1 "/r/a" = scenarioFS "/r/a" ∧
      ((hardlinkGroup (scenarioFS, 0) ["/r/a", "/r/b", "/r/c"])).1 "/r/x" = scenarioFS "/r/x" :=
  C10_original_never_replaced scenarioFS 0 "/r/a" ["/r/b", "/r/c"] "/r/x" (by decide)

end FileDedupe
